import Mathlib

/-!
Verification model of the financial dashboard in `src/app.py`.

The app stores monthly financial snapshots in a CSV file.  We model
the CSV file as a header plus string-valued records, the in-memory
pandas DataFrame as a list of rows (an optional parsed date plus one
rational value per schema field, with an explicit positional index
where it matters), and the operations `load_data`, `save_data`,
`delete_date`, the form-submit save path (upsert), the ratio table
`RATIO_FIELDS` and the formatters `fmt`, `fmt_decimal`, `fmt_percent`.

Machine floats are modelled as rationals; the `NaN`/`NaT` missing
markers of pandas are modelled as `Option.none`.
-/

/-! ### Decimal digits: printing and parsing -/

/-- The character for one decimal digit (`0`–`9`), clamped from above. -/
def digitChar (d : Nat) : Char := Char.ofNat (48 + min d 9)

/-- The numeric value of a decimal digit character. -/
def charVal (c : Char) : Option Nat :=
  if 48 ≤ c.toNat ∧ c.toNat ≤ 57 then some (c.toNat - 48) else none

/-- Little-endian base-10 digits of `n`, with explicit fuel. -/
def natDigitsFuel : Nat → Nat → List Nat
  | 0, _ => []
  | _ + 1, 0 => []
  | f + 1, n + 1 => ((n + 1) % 10) :: natDigitsFuel f ((n + 1) / 10)

/-- Little-endian base-10 digits of `n` (empty for `0`). -/
def natDigits (n : Nat) : List Nat := natDigitsFuel n n

/-- Value of a little-endian digit list. -/
def ofDigits10 : List Nat → Nat
  | [] => 0
  | d :: ds => d + 10 * ofDigits10 ds

/-- Decimal representation of `n`, most significant digit first. -/
def natRepr (n : Nat) : List Char :=
  if n = 0 then ['0'] else (natDigits n).reverse.map digitChar

/-- Parse a list of digit characters (big-endian); `none` on any non-digit. -/
def parseDigits : List Char → Option (List Nat)
  | [] => some []
  | c :: cs =>
    match charVal c, parseDigits cs with
    | some d, some ds => some (d :: ds)
    | _, _ => none

/-- Parse a nonempty big-endian decimal numeral. -/
def parseNatChars (l : List Char) : Option Nat :=
  if l.isEmpty then none
  else (parseDigits l).map (fun ds => ofDigits10 ds.reverse)

/-- Left-pad with `'0'` to width `k`. -/
def padZeros (k : Nat) (l : List Char) : List Char :=
  List.replicate (k - l.length) '0' ++ l

theorem charVal_digitChar {d : Nat} (h : d < 10) : charVal (digitChar d) = some d := by
  interval_cases d <;> decide

theorem digitChar_toNat_range (d : Nat) :
    48 ≤ (digitChar d).toNat ∧ (digitChar d).toNat ≤ 57 := by
  rw [digitChar]
  have hm : min d 9 ≤ 9 := Nat.min_le_right d 9
  set m := min d 9 with hmdef
  clear_value m
  interval_cases m <;> decide

theorem ofDigits10_natDigitsFuel :
    ∀ (f n : Nat), n < 10 ^ f → ofDigits10 (natDigitsFuel f n) = n := by
  intro f
  induction f with
  | zero => intro n hn; interval_cases n; rfl
  | succ f ih =>
    intro n hn
    match n with
    | 0 => rfl
    | n + 1 =>
      have hdiv : (n + 1) / 10 < 10 ^ f := by
        rw [Nat.div_lt_iff_lt_mul (by norm_num)]
        calc n + 1 < 10 ^ (f + 1) := hn
        _ = 10 ^ f * 10 := by ring
      simp only [natDigitsFuel, ofDigits10, ih _ hdiv]
      omega

theorem lt_ten_pow_self (n : Nat) : n < 10 ^ n := by
  induction n with
  | zero => norm_num
  | succ n ih =>
    have h1 : 1 ≤ 10 ^ n := Nat.one_le_pow _ _ (by norm_num)
    have hp : 10 ^ (n + 1) = 10 ^ n * 10 := pow_succ 10 n
    omega

theorem ofDigits10_natDigits (n : Nat) : ofDigits10 (natDigits n) = n :=
  ofDigits10_natDigitsFuel n n (lt_ten_pow_self n)

theorem natDigitsFuel_lt_ten : ∀ (f n : Nat), ∀ d ∈ natDigitsFuel f n, d < 10 := by
  intro f
  induction f with
  | zero => intro n d hd; simp [natDigitsFuel] at hd
  | succ f ih =>
    intro n d hd
    match n with
    | 0 => simp [natDigitsFuel] at hd
    | n + 1 =>
      simp only [natDigitsFuel, List.mem_cons] at hd
      rcases hd with h | h
      · omega
      · exact ih _ _ h

theorem natDigitsFuel_length_le :
    ∀ (k f n : Nat), n < 10 ^ k → (natDigitsFuel f n).length ≤ k := by
  intro k
  induction k with
  | zero =>
    intro f n hn
    interval_cases n
    match f with
    | 0 => simp [natDigitsFuel]
    | f + 1 => simp [natDigitsFuel]
  | succ k ih =>
    intro f n hn
    match f with
    | 0 => simp [natDigitsFuel]
    | f + 1 =>
      match n with
      | 0 => simp [natDigitsFuel]
      | n + 1 =>
        have hdiv : (n + 1) / 10 < 10 ^ k := by
          rw [Nat.div_lt_iff_lt_mul (by norm_num)]
          calc n + 1 < 10 ^ (k + 1) := hn
          _ = 10 ^ k * 10 := by ring
        simpa [natDigitsFuel] using ih f ((n + 1) / 10) hdiv

theorem natRepr_length_le {k n : Nat} (hk : 1 ≤ k) (hn : n < 10 ^ k) :
    (natRepr n).length ≤ k := by
  unfold natRepr
  split
  · simpa
  · simpa [natDigits] using natDigitsFuel_length_le k n n hn

theorem parseDigits_map_digitChar (l : List Nat) (h : ∀ d ∈ l, d < 10) :
    parseDigits (l.map digitChar) = some l := by
  induction l with
  | nil => rfl
  | cons d ds ih =>
    have hd : d < 10 := h d (by simp)
    have hds := ih (fun x hx => h x (by simp [hx]))
    simp [parseDigits, charVal_digitChar hd, hds]

theorem parseNatChars_rev_map (l : List Nat) (hne : l ≠ []) (hlt : ∀ d ∈ l, d < 10) :
    parseNatChars (l.reverse.map digitChar) = some (ofDigits10 l) := by
  have hrevne : l.reverse ≠ [] := by simpa
  obtain ⟨a, as, hcons⟩ := List.exists_cons_of_ne_nil hrevne
  have hparse := parseDigits_map_digitChar l.reverse (fun d hd => hlt d (List.mem_reverse.mp hd))
  have hemp : (l.reverse.map digitChar).isEmpty = false := by rw [hcons]; rfl
  simp only [parseNatChars, hemp, Bool.false_eq_true, if_false, hparse, Option.map_some',
    List.reverse_reverse]

theorem parseNatChars_natRepr (n : Nat) : parseNatChars (natRepr n) = some n := by
  by_cases h : n = 0
  · subst h; rfl
  · have hne : natDigits n ≠ [] := by
      intro hnil
      have h0 := ofDigits10_natDigits n
      rw [hnil] at h0
      exact h h0.symm
    have hlt : ∀ d ∈ natDigits n, d < 10 := fun d hd => natDigitsFuel_lt_ten n n d hd
    rw [natRepr, if_neg h, parseNatChars_rev_map _ hne hlt, ofDigits10_natDigits]

theorem parseDigits_cons_zero (t : List Char) :
    parseDigits ('0' :: t) = (parseDigits t).map (fun ds => 0 :: ds) := by
  cases h : parseDigits t with
  | none => rw [parseDigits, h]; rfl
  | some ds => rw [parseDigits, h]; rfl

theorem parseDigits_replicate_zero (j : Nat) (l : List Char) :
    parseDigits (List.replicate j '0' ++ l) =
      (parseDigits l).map (fun ds => List.replicate j 0 ++ ds) := by
  induction j with
  | zero =>
    rw [List.replicate_zero, List.nil_append]
    cases parseDigits l <;> rfl
  | succ j ih =>
    rw [List.replicate_succ, List.cons_append, parseDigits_cons_zero, ih]
    cases parseDigits l <;> rfl

theorem ofDigits10_append_replicate_zero (xs : List Nat) (j : Nat) :
    ofDigits10 (xs ++ List.replicate j 0) = ofDigits10 xs := by
  induction xs with
  | nil =>
    simp only [List.nil_append]
    induction j with
    | zero => rfl
    | succ j ihj => simp [List.replicate_succ, ofDigits10, ihj]
  | cons x xs ih => simp [ofDigits10, ih]

theorem natRepr_ne_nil (n : Nat) : natRepr n ≠ [] := by
  by_cases h : n = 0
  · simp [natRepr, h]
  · rw [natRepr, if_neg h]
    intro hnil
    have hlen := congrArg List.length hnil
    simp only [List.length_map, List.length_reverse, List.length_nil] at hlen
    have hdig : natDigits n = [] := List.length_eq_zero.mp hlen
    have h0 := ofDigits10_natDigits n
    rw [hdig] at h0
    exact h h0.symm

theorem parseNatChars_replicate_zero (j n : Nat) :
    parseNatChars (List.replicate j '0' ++ natRepr n) = some n := by
  have hne : natRepr n ≠ [] := natRepr_ne_nil n
  obtain ⟨a, as, hcons⟩ := List.exists_cons_of_ne_nil hne
  have hemp : (List.replicate j '0' ++ natRepr n).isEmpty = false := by
    cases j with
    | zero => rw [List.replicate_zero, List.nil_append, hcons]; rfl
    | succ j => rw [List.replicate_succ, List.cons_append]; rfl
  have h0 := parseNatChars_natRepr n
  rw [parseNatChars] at h0
  have hempR : (natRepr n).isEmpty = false := by rw [hcons]; rfl
  rw [hempR] at h0
  simp only [Bool.false_eq_true, if_false] at h0
  rw [parseNatChars, hemp]
  simp only [Bool.false_eq_true, if_false, parseDigits_replicate_zero]
  rcases hd : parseDigits (natRepr n) with _ | ds
  · rw [hd] at h0; simp at h0
  · rw [hd] at h0
    simp only [Option.map_some', Option.some_inj] at h0
    simp only [Option.map_some', Option.some_inj]
    rw [List.reverse_append, List.reverse_replicate, ← h0]
    exact ofDigits10_append_replicate_zero ds.reverse j

theorem parseNatChars_padZeros (k : Nat) (n : Nat) :
    parseNatChars (padZeros k (natRepr n)) = some n := by
  rw [padZeros]
  exact parseNatChars_replicate_zero _ n

/-! ### Splitting a character list on a separator -/

def splitOnChar (sep : Char) : List Char → List (List Char)
  | [] => [[]]
  | c :: cs =>
    if c = sep then [] :: splitOnChar sep cs
    else
      match splitOnChar sep cs with
      | [] => [[c]]
      | g :: gs => (c :: g) :: gs

theorem splitOnChar_ne_nil (sep : Char) (l : List Char) : splitOnChar sep l ≠ [] := by
  induction l with
  | nil => simp [splitOnChar]
  | cons c cs ih =>
    rw [splitOnChar]
    split
    · simp
    · rcases h : splitOnChar sep cs with _ | ⟨g, gs⟩
      · simp
      · simp

theorem splitOnChar_no_sep (sep : Char) (l : List Char) (h : sep ∉ l) :
    splitOnChar sep l = [l] := by
  induction l with
  | nil => rfl
  | cons c cs ih =>
    have hc : c ≠ sep := fun hcc => h (by simp [hcc])
    have hcs : sep ∉ cs := fun hm => h (by simp [hm])
    rw [splitOnChar, if_neg hc, ih hcs]

theorem splitOnChar_append (sep : Char) (a b : List Char) (h : sep ∉ a) :
    splitOnChar sep (a ++ sep :: b) = a :: splitOnChar sep b := by
  induction a with
  | nil => simp [splitOnChar]
  | cons c cs ih =>
    have hc : c ≠ sep := fun hcc => h (by simp [hcc])
    have hcs : sep ∉ cs := fun hm => h (by simp [hm])
    rw [List.cons_append, splitOnChar, if_neg hc, ih hcs]

/-! ### Calendar dates (model of `pandas.Timestamp` at day resolution) -/

/-- A calendar date, as carried by a day-resolution `pandas.Timestamp`. -/
structure PDate where
  year : Nat
  month : Nat
  day : Nat
deriving DecidableEq

/-- Gregorian leap-year rule, as used by `calendar.monthrange`. -/
def isLeap (y : Nat) : Bool :=
  y % 4 = 0 && (y % 100 ≠ 0 || y % 400 = 0)

/-- Number of days of month `m` of year `y` (`calendar.monthrange(y, m)[1]`). -/
def monthrange (y m : Nat) : Nat :=
  match m with
  | 1 => 31 | 2 => if isLeap y then 29 else 28 | 3 => 31 | 4 => 30
  | 5 => 31 | 6 => 30 | 7 => 31 | 8 => 31
  | 9 => 30 | 10 => 31 | 11 => 30 | 12 => 31
  | _ => 0

/-- The last calendar day of month `m` of year `y`. -/
def lastDate (y m : Nat) : PDate := ⟨y, m, monthrange y m⟩

/-- The Unix epoch, `1970-01-01`. -/
def epochDate : PDate := ⟨1970, 1, 1⟩

/-- A date a `pandas.Timestamp` can actually hold: a real calendar day inside
the representable `Timestamp` year range (1677-09-21 … 2262-04-11, relaxed
here to whole years). -/
def ValidDate (d : PDate) : Prop :=
  1 ≤ d.month ∧ d.month ≤ 12 ∧ 1 ≤ d.day ∧ d.day ≤ monthrange d.year d.month ∧
    1678 ≤ d.year ∧ d.year ≤ 2261

instance (d : PDate) : Decidable (ValidDate d) := by
  unfold ValidDate; exact inferInstance

/-- ISO serialization of the `Date` column cell (`YYYY-MM-DD`, empty for `NaT`). -/
def serializeDate : Option PDate → List Char
  | none => []
  | some d =>
    padZeros 4 (natRepr d.year) ++ '-' ::
      (padZeros 2 (natRepr d.month) ++ '-' :: padZeros 2 (natRepr d.day))

/-- Parse of a `Date` cell by `pd.to_datetime(..., errors='coerce')`:
an ISO calendar date, `none` (`NaT`) when the text is not a valid date. -/
def parseDateChars (l : List Char) : Option PDate :=
  match splitOnChar '-' l with
  | [a, b, c] =>
    match parseNatChars a, parseNatChars b, parseNatChars c with
    | some y, some m, some d =>
      if 1 ≤ m ∧ m ≤ 12 ∧ 1 ≤ d ∧ d ≤ monthrange y m ∧ 1678 ≤ y ∧ y ≤ 2261 then
        some ⟨y, m, d⟩
      else none
    | _, _, _ => none
  | _ => none

theorem mem_padZeros_natRepr {c : Char} {k n : Nat} (h : c ∈ padZeros k (natRepr n)) :
    48 ≤ c.toNat ∧ c.toNat ≤ 57 := by
  rw [padZeros, List.mem_append] at h
  rcases h with h | h
  · rw [List.eq_of_mem_replicate h]; decide
  · rw [natRepr] at h
    split at h
    · simp at h; rw [h]; decide
    · rw [List.mem_map] at h
      obtain ⟨d, _, hd⟩ := h
      rw [← hd]
      exact digitChar_toNat_range d

theorem dash_not_mem_padZeros (k n : Nat) : '-' ∉ padZeros k (natRepr n) := by
  intro h
  exact absurd (mem_padZeros_natRepr h) (by decide)

theorem parseDateChars_serializeDate {d : PDate} (h : ValidDate d) :
    parseDateChars (serializeDate (some d)) = some d := by
  obtain ⟨h1, h2, h3, h4, h5, h6⟩ := h
  rw [serializeDate, parseDateChars]
  rw [splitOnChar_append '-' _ _ (dash_not_mem_padZeros 4 d.year),
    splitOnChar_append '-' _ _ (dash_not_mem_padZeros 2 d.month),
    splitOnChar_no_sep '-' _ (dash_not_mem_padZeros 2 d.day)]
  dsimp only
  rw [parseNatChars_padZeros, parseNatChars_padZeros, parseNatChars_padZeros]
  dsimp only
  rw [if_pos ⟨h1, h2, h3, h4, h5, h6⟩]

theorem parseDateChars_nil : parseDateChars [] = none := rfl

/-- Round trip of a `Date` cell for every value the store writes:
a real date or the `NaT` marker (serialized as the empty cell). -/
theorem parseDateChars_serializeDate_opt {o : Option PDate}
    (h : ∀ d, o = some d → ValidDate d) :
    parseDateChars (serializeDate o) = o := by
  cases o with
  | none => rfl
  | some d => exact parseDateChars_serializeDate (h d rfl)

/-! ### Numeric cells: decimal printing and parsing -/

/-- Upward search for an exponent `j` with `den ∣ 10 ^ j`, starting at `k`. -/
def findExpAux : Nat → Nat → Nat → Option Nat
  | 0, den, k => if den ∣ 10 ^ k then some k else none
  | f + 1, den, k => if den ∣ 10 ^ k then some k else findExpAux f den (k + 1)

/-- The number of decimal places needed for an exact rendering of a fraction
with denominator `den` (`none` when no finite decimal exists). -/
def decExpOpt (den : Nat) : Option Nat := findExpAux den den 0

/-- A rational that a finite decimal (hence a parsed CSV cell or a float)
can denote exactly. -/
def DecimalRep (q : ℚ) : Prop := (decExpOpt q.den).isSome = true

instance (q : ℚ) : Decidable (DecimalRep q) := by
  unfold DecimalRep; exact inferInstance

theorem findExpAux_dvd :
    ∀ (f den k j : Nat), findExpAux f den k = some j → den ∣ 10 ^ j := by
  intro f
  induction f with
  | zero =>
    intro den k j h
    rw [findExpAux] at h
    split at h
    · cases h; assumption
    · cases h
  | succ f ih =>
    intro den k j h
    rw [findExpAux] at h
    split at h
    · cases h; assumption
    · exact ih den (k + 1) j h

theorem decExpOpt_dvd {den j : Nat} (h : decExpOpt den = some j) : den ∣ 10 ^ j :=
  findExpAux_dvd den den 0 j h

/-- Digits of the nonnegative value `n / 10 ^ k`, with a decimal point when
`k > 0` (pandas serializes floats as plain decimal text). -/
def serializeNumPos (n k : Nat) : List Char :=
  if k = 0 then natRepr n
  else natRepr (n / 10 ^ k) ++ '.' :: padZeros k (natRepr (n % 10 ^ k))

/-- Exact decimal text of a rational (used for CSV cells written by
`DataFrame.to_csv`); empty when the value has no finite decimal form. -/
def serializeNum (q : ℚ) : List Char :=
  match decExpOpt q.den with
  | none => []
  | some k =>
    if q.num < 0 then '-' :: serializeNumPos (q.num.natAbs * (10 ^ k / q.den)) k
    else serializeNumPos (q.num.natAbs * (10 ^ k / q.den)) k

/-- Parse an unsigned decimal numeral, with an optional fractional part. -/
def parseNumPos (l : List Char) : Option ℚ :=
  match splitOnChar '.' l with
  | [a] => (parseNatChars a).map (fun n => (n : ℚ))
  | [a, b] =>
    match parseNatChars a, parseDigits b with
    | some n, some ds =>
      if b.isEmpty then none
      else some ((n : ℚ) + (ofDigits10 ds.reverse : ℚ) / (10 ^ b.length : ℚ))
    | _, _ => none
  | _ => none

/-- Parse of a numeric cell by `pd.to_numeric(..., errors='coerce')`:
an optionally signed decimal numeral, `NaN` (`none`) otherwise. -/
def parseNumChars (l : List Char) : Option ℚ :=
  if l.head? = some '-' then (parseNumPos l.tail).map (fun q => -q)
  else parseNumPos l

theorem dot_not_mem_padZeros (k n : Nat) : '.' ∉ padZeros k (natRepr n) := by
  intro h
  exact absurd (mem_padZeros_natRepr h) (by decide)

theorem dot_not_mem_natRepr (n : Nat) : '.' ∉ natRepr n := by
  have h := dot_not_mem_padZeros 0 n
  simpa [padZeros] using h

theorem parseDigits_length : ∀ (l : List Char) (ds : List Nat),
    parseDigits l = some ds → ds.length = l.length := by
  intro l
  induction l with
  | nil => intro ds h; cases h; rfl
  | cons c cs ih =>
    intro ds h
    rw [parseDigits] at h
    rcases hc : charVal c with _ | d
    · rw [hc] at h; cases h
    · rcases hcs : parseDigits cs with _ | ds'
      · rw [hc, hcs] at h; cases h
      · rw [hc, hcs] at h
        cases h
        simpa using ih ds' hcs

theorem parseDigits_natRepr (m : Nat) :
    ∃ ds, parseDigits (natRepr m) = some ds ∧ ofDigits10 ds.reverse = m ∧
      ds.length = (natRepr m).length := by
  have h0 := parseNatChars_natRepr m
  rw [parseNatChars] at h0
  have hne := natRepr_ne_nil m
  obtain ⟨a, as, hcons⟩ := List.exists_cons_of_ne_nil hne
  have hemp : (natRepr m).isEmpty = false := by rw [hcons]; rfl
  rw [hemp] at h0
  simp only [Bool.false_eq_true, if_false] at h0
  rcases hd : parseDigits (natRepr m) with _ | ds
  · rw [hd] at h0; simp at h0
  · rw [hd] at h0
    simp only [Option.map_some', Option.some_inj] at h0
    exact ⟨ds, rfl, h0, parseDigits_length _ _ hd⟩

theorem padZeros_length {k : Nat} (l : List Char) (h : l.length ≤ k) :
    (padZeros k l).length = k := by
  rw [padZeros]
  simp only [List.length_append, List.length_replicate]
  omega

theorem parseDigits_padZeros_natRepr {k m : Nat} (hk : 1 ≤ k) (hm : m < 10 ^ k) :
    ∃ ds, parseDigits (padZeros k (natRepr m)) = some ds ∧ ds.length = k ∧
      ofDigits10 ds.reverse = m := by
  obtain ⟨ds0, hds0, hval, hlen⟩ := parseDigits_natRepr m
  refine ⟨List.replicate (k - (natRepr m).length) 0 ++ ds0, ?_, ?_, ?_⟩
  · rw [padZeros, parseDigits_replicate_zero, hds0]; rfl
  · have hle := natRepr_length_le hk hm
    simp only [List.length_append, List.length_replicate]
    omega
  · rw [List.reverse_append, List.reverse_replicate, ← hval]
    exact ofDigits10_append_replicate_zero ds0.reverse _

theorem nat_div_add_mod_div (n k : Nat) :
    ((n / 10 ^ k : Nat) : ℚ) + ((n % 10 ^ k : Nat) : ℚ) / ((10 : ℚ) ^ k) =
      (n : ℚ) / (10 : ℚ) ^ k := by
  have h10 : ((10 : ℚ) ^ k) ≠ 0 := by positivity
  rw [eq_div_iff h10, add_mul, div_mul_cancel₀ _ h10]
  norm_cast
  rw [Nat.mul_comm]
  exact Nat.div_add_mod n (10 ^ k)

theorem isEmpty_false_of_length_pos {l : List Char} (h : 1 ≤ l.length) :
    l.isEmpty = false := by
  cases l with
  | nil => simp at h
  | cons a as => rfl

theorem parseNumPos_serializeNumPos (n k : Nat) :
    parseNumPos (serializeNumPos n k) = some ((n : ℚ) / (10 : ℚ) ^ k) := by
  by_cases hk : k = 0
  · subst hk
    rw [serializeNumPos, if_pos rfl, parseNumPos,
      splitOnChar_no_sep '.' _ (dot_not_mem_natRepr n)]
    dsimp only
    rw [parseNatChars_natRepr]
    simp
  · have hk1 : 1 ≤ k := Nat.one_le_iff_ne_zero.mpr hk
    have hmod : n % 10 ^ k < 10 ^ k := Nat.mod_lt n (by positivity)
    obtain ⟨ds, hds, hdslen, hdsval⟩ := parseDigits_padZeros_natRepr hk1 hmod
    have hpadlen : (padZeros k (natRepr (n % 10 ^ k))).length = k :=
      padZeros_length _ (natRepr_length_le hk1 hmod)
    rw [serializeNumPos, if_neg hk, parseNumPos,
      splitOnChar_append '.' _ _ (dot_not_mem_natRepr _),
      splitOnChar_no_sep '.' _ (dot_not_mem_padZeros _ _)]
    dsimp only
    rw [parseNatChars_natRepr, hds]
    dsimp only
    have hienil : (padZeros k (natRepr (n % 10 ^ k))).isEmpty = false :=
      isEmpty_false_of_length_pos (by rw [hpadlen]; exact hk1)
    rw [if_neg (by rw [hienil]; exact Bool.false_ne_true)]
    rw [hdsval, hpadlen, nat_div_add_mod_div]

theorem head_mem {l : List Char} {c : Char} (h : l.head? = some c) : c ∈ l := by
  cases l with
  | nil => cases h
  | cons a as =>
    simp only [List.head?_cons, Option.some_inj] at h
    rw [← h]; simp

theorem dash_not_mem_natRepr (n : Nat) : '-' ∉ natRepr n := by
  have h := dash_not_mem_padZeros 0 n
  simpa [padZeros] using h

theorem serializeNumPos_head_ne_dash (n k : Nat) :
    ¬ (serializeNumPos n k).head? = some '-' := by
  intro h
  have hmem : '-' ∈ serializeNumPos n k := head_mem h
  rw [serializeNumPos] at hmem
  split at hmem
  · exact dash_not_mem_natRepr n hmem
  · rw [List.mem_append] at hmem
    rcases hmem with h' | h'
    · exact dash_not_mem_natRepr _ h'
    · rcases List.mem_cons.mp h' with h'' | h''
      · exact absurd h'' (by decide)
      · exact dash_not_mem_padZeros _ _ h''

theorem natAbs_mul_div_pow_eq_abs {q : ℚ} {k c : Nat} (hcmul : c * q.den = 10 ^ k) :
    ((q.num.natAbs * c : Nat) : ℚ) / (10 : ℚ) ^ k = |q| := by
  have hdenpos : (0 : ℚ) < (q.den : ℚ) := by exact_mod_cast q.den_pos
  have hc0 : (c : ℚ) ≠ 0 := by
    intro h0
    have hcz : c = 0 := by exact_mod_cast h0
    rw [hcz, Nat.zero_mul] at hcmul
    exact absurd hcmul.symm (by positivity)
  have h1 : ((10 : ℚ) ^ k) = (c : ℚ) * (q.den : ℚ) := by exact_mod_cast hcmul.symm
  rw [h1]
  push_cast
  rw [mul_comm ((q.num.natAbs : ℚ)) (c : ℚ), mul_div_mul_left _ _ hc0]
  rw [Int.cast_natAbs, ← abs_of_pos hdenpos]
  push_cast
  rw [← abs_div, Rat.num_div_den]

theorem parseNumChars_serializeNum {q : ℚ} (h : DecimalRep q) :
    parseNumChars (serializeNum q) = some q := by
  rw [DecimalRep] at h
  obtain ⟨k, hk⟩ := Option.isSome_iff_exists.mp h
  have hdvd := decExpOpt_dvd hk
  have hcmul : (10 ^ k / q.den) * q.den = 10 ^ k := Nat.div_mul_cancel hdvd
  have habs := natAbs_mul_div_pow_eq_abs (q := q) hcmul
  by_cases hneg : q.num < 0
  · have hqneg : q < 0 := by
      by_contra hc
      push_neg at hc
      have := Rat.num_nonneg.mpr hc
      omega
    rw [serializeNum, hk]
    dsimp only
    rw [if_pos hneg, parseNumChars]
    rw [if_pos (show (('-' :: serializeNumPos (q.num.natAbs * (10 ^ k / q.den)) k).head? =
      some '-') from rfl)]
    rw [List.tail_cons, parseNumPos_serializeNumPos]
    simp only [Option.map_some', Option.some_inj]
    rw [habs, abs_of_neg hqneg, neg_neg]
  · have hqpos : 0 ≤ q := by
      push_neg at hneg
      exact Rat.num_nonneg.mp hneg
    rw [serializeNum, hk]
    dsimp only
    rw [if_neg hneg, parseNumChars]
    rw [if_neg (serializeNumPos_head_ne_dash _ _)]
    rw [parseNumPos_serializeNumPos, Option.some_inj]
    rw [habs, abs_of_nonneg hqpos]

/-! ### The record store: schema, CSV file, `load_data`, `save_data` -/

/-- The fixed account-field schema (`ACCOUNT_FIELDS` in `src/app.py`). -/
def ACCOUNT_FIELDS : List String :=
  ["Current Asset", "Non Current Asset", "Total Asset",
   "Current Liabilities", "Non Current Liabilities", "Total Liabilities",
   "Equity", "Revenue", "Administration Exp", "Employee Expense",
   "Marketing Expense", "Rent Expense", "Right of Use Assets Expense",
   "Depreciation Expense", "Total Operating Exp.", "Operating Income",
   "Other Income and Expense", "Net Income", "Tax", "Income After Tax"]

/-- The canonical column list, `Date` first (the loop in `load_data`). -/
def canonicalCols : List String := "Date" :: ACCOUNT_FIELDS

/-- The backing CSV file: a header row and string-valued records. -/
structure CsvFile where
  header : List String
  records : List (List String)

/-- A cell as seen by the coercions in `load_data`: either text read from
the file, or the scalar integer `0` broadcast by `df[col] = 0` for a
column missing from the file. -/
inductive RawCell where
  | fileCell (s : String)
  | synthZero
deriving DecidableEq

/-- Index of the first column named `c` in a header. -/
def colIndex : List String → String → Option Nat
  | [], _ => none
  | h :: t, c => if h = c then some 0 else (colIndex t c).map (· + 1)

/-- The cell of column `c` in record `rec` of a file with header `hdr`
(after the missing-column synthesis loop of `load_data`). -/
def getRawCell (hdr : List String) (rec : List String) (c : String) : RawCell :=
  match colIndex hdr c with
  | some i => .fileCell (rec.getD i "")
  | none => .synthZero

/-- `pd.to_datetime(cell, errors='coerce')`.  A synthesized `0` is read as
0 nanoseconds after the Unix epoch, i.e. `1970-01-01`; text is parsed as a
calendar date, `NaT` (`none`) when unparseable. -/
def toDatetime : RawCell → Option PDate
  | .fileCell s => parseDateChars s.data
  | .synthZero => some epochDate

/-- `pd.to_numeric(cell, errors='coerce').fillna(0)`. -/
def toNumeric : RawCell → ℚ
  | .fileCell s => (parseNumChars s.data).getD 0
  | .synthZero => 0

/-- One row of the in-memory table: the coerced `Date` value plus the 20
account-field values in schema order. -/
structure Row where
  date : Option PDate
  fields : List ℚ
deriving DecidableEq

instance : Inhabited Row := ⟨⟨none, []⟩⟩

/-- The coercion of one CSV record into a `Row` (the `Date` and field
coercions of `load_data`). -/
def loadRow (hdr : List String) (rec : List String) : Row :=
  { date := toDatetime (getRawCell hdr rec "Date"),
    fields := ACCOUNT_FIELDS.map (fun c => toNumeric (getRawCell hdr rec c)) }

/-- The result of `load_data`: the DataFrame column list and the rows. -/
structure LoadedTable where
  cols : List String
  rows : List Row
deriving DecidableEq

/-- `load_data()` in `src/app.py`: reads the CSV if present (else an empty
table with the canonical columns), appends every canonical column missing
from the file as the scalar `0`, coerces `Date` with
`pd.to_datetime(..., errors='coerce')` and every schema field with
`pd.to_numeric(..., errors='coerce').fillna(0)`. -/
def load_data : Option CsvFile → LoadedTable
  | none => { cols := canonicalCols, rows := [] }
  | some f =>
    { cols := f.header ++ canonicalCols.filter (fun c => ¬ f.header.contains c),
      rows := f.records.map (loadRow f.header) }

/-- `save_data(df)`: `df.to_csv(csv_file, index=False)` — the canonical
header plus one serialized record per row, the index dropped. -/
def save_data (rows : List Row) : CsvFile :=
  { header := canonicalCols,
    records := rows.map (fun r =>
      String.mk (serializeDate r.date) :: r.fields.map (fun v => String.mk (serializeNum v))) }

/-! ### Session-level operations: upsert (form save) and delete -/

/-- A DataFrame with its integer index made explicit: index-value pairs. -/
abbrev Frame := List (Nat × Row)

/-- The rows of a frame, without the index. -/
def frameRows (df : Frame) : List Row := df.map Prod.snd

/-- A dense `0,1,2,…` index starting at `i` (`reset_index(drop=True)` /
`ignore_index=True`). -/
def reindexFrom (i : Nat) : List Row → Frame
  | [] => []
  | r :: rs => (i, r) :: reindexFrom (i + 1) rs

/-- pandas elementwise equality of `Date` cells: `NaT == anything` is
`False` (so `NaT != anything` is `True`). -/
def dateEqB : Option PDate → Option PDate → Bool
  | some a, some b => a = b
  | _, _ => false

/-- The form-submit save path of the Input tab: if the target date exists,
drop every row at that date and append the new row (when overwrite is
confirmed; otherwise do nothing); if it does not exist, append.  The
returned string is the toast message shown to the user (`none` when the
submission is ignored). -/
def upsert (df : Frame) (ts : PDate) (vals : List ℚ) (overwrite : Bool) :
    Frame × Option String :=
  if (frameRows df).any (fun r => dateEqB r.date (some ts)) then
    if overwrite then
      (reindexFrom 0 ((frameRows df).filter (fun r => ! dateEqB r.date (some ts))
          ++ [⟨some ts, vals⟩]),
        some "Data overwritten successfully.")
    else (df, none)
  else
    (reindexFrom 0 (frameRows df ++ [⟨some ts, vals⟩]),
      some "Data saved successfully.")

/-- Month-name abbreviations, as produced and parsed by `%b`. -/
def monthAbbrevs : List String :=
  ["Jan", "Feb", "Mar", "Apr", "May", "Jun",
   "Jul", "Aug", "Sep", "Oct", "Nov", "Dec"]

/-- `pd.to_datetime(label_str, format='%b %Y')`, reduced to the
`(year, month)` pair the code extracts from the resulting timestamp. -/
def parseLabel (s : String) : Option (Nat × Nat) :=
  match splitOnChar ' ' s.data with
  | [a, b] =>
    match colIndex monthAbbrevs (String.mk a), parseNatChars b with
    | some i, some y => some (y, i + 1)
    | _, _ => none
  | _ => none

/-- `delete_date(df, label_str)`: re-derive the last calendar day of the
labeled month, keep the rows whose `Date` differs (`df['Date'] != actual_date`,
which keeps `NaT` rows), reset the index, and return the new table together
with the pre-deletion backup. -/
def delete_date (df : Frame) (label : String) : Option (Frame × Frame) :=
  (parseLabel label).map (fun p =>
    (reindexFrom 0 ((frameRows df).filter
        (fun r => ! dateEqB r.date (some (lastDate p.1 p.2)))),
      df))

/-! ### Ratio engine and formatters -/

/-- Output kind of a ratio column. -/
inductive RatioKind where
  | decimal
  | percent
deriving DecidableEq

/-- One entry of `RATIO_FIELDS`: display name, numerator and denominator
schema positions, output kind.  Every entry computes
`df[num] / df[den].replace(0, pd.NA)`. -/
structure RatioDef where
  name : String
  numIdx : Nat
  denIdx : Nat
  kind : RatioKind
deriving DecidableEq

/-- `RATIO_FIELDS` in `src/app.py`.  Positions refer to `ACCOUNT_FIELDS`:
0 Current Asset, 2 Total Asset, 3 Current Liabilities, 5 Total Liabilities,
6 Equity, 7 Revenue, 15 Operating Income, 17 Net Income. -/
def RATIO_FIELDS : List RatioDef :=
  [⟨"Current Ratio", 0, 3, .decimal⟩,
   ⟨"Debt to Equity Ratio", 5, 6, .decimal⟩,
   ⟨"Operating Profit Margin (%)", 15, 7, .percent⟩,
   ⟨"Net Profit Margin (%)", 17, 7, .percent⟩,
   ⟨"Return on Assets (ROA) (%)", 17, 2, .percent⟩,
   ⟨"Return on Equity (ROE) (%)", 17, 6, .percent⟩]

/-- Value of schema field `i` in a row. -/
def getField (r : Row) (i : Nat) : ℚ := r.fields.getD i 0

/-- One ratio cell: `df[num] / df[den].replace(0, pd.NA)` — a zero
denominator becomes `pd.NA`, and division by `NA` propagates `NA`. -/
def ratioValue (e : RatioDef) (r : Row) : Option ℚ :=
  if getField r e.denIdx = 0 then none
  else some (getField r e.numIdx / getField r e.denIdx)

/-- Round-half-even of the integer fraction `a / b` (`b > 0`), the rounding
used when Python formats a value to a fixed number of decimals. -/
def rhe (a b : ℤ) : ℤ :=
  if 2 * (a % b) < b then a / b
  else if b < 2 * (a % b) then a / b + 1
  else if (a / b) % 2 = 0 then a / b else a / b + 1

/-- The value of `q` in hundredths, rounded (the number behind a `.2f`
format of `q`). -/
def centi (q : ℚ) : ℤ := rhe (q.num * 100) (q.den : ℤ)

/-- Digits of `n` grouped in thousands with `,` (`{:,}`), little-endian
input and output; the counter holds the digits left in the current group. -/
def chunkAux : Nat → List Char → List Char
  | _, [] => []
  | 0, c :: cs => ',' :: c :: chunkAux 2 cs
  | n + 1, c :: cs => c :: chunkAux n cs

/-- `{n:,}` for a natural number: decimal digits grouped in thousands. -/
def groupNat (n : Nat) : List Char := (chunkAux 3 (natRepr n).reverse).reverse

/-- `{n:,}` for an integer. -/
def groupInt (n : ℤ) : List Char :=
  if n < 0 then '-' :: groupNat n.natAbs else groupNat n.natAbs

/-- `f"{q:,.2f}"`: thousands-grouped fixed-point with exactly 2 decimals
(Python keeps the sign of the value, even when the digits round to zero). -/
def groupFixed2 (q : ℚ) : List Char :=
  (if q.num < 0 then ['-'] else []) ++
    groupNat ((centi q).natAbs / 100) ++ '.' :: padZeros 2 (natRepr ((centi q).natAbs % 100))

/-- `f"{q:.2f}"`: fixed-point with exactly 2 decimals, no grouping. -/
def toFixed2 (q : ℚ) : List Char :=
  (if q.num < 0 then ['-'] else []) ++
    natRepr ((centi q).natAbs / 100) ++ '.' :: padZeros 2 (natRepr ((centi q).natAbs % 100))

/-- `q × 100` computed on the normalized numerator (equal to `q * 100`,
stated below), kept in kernel-computable form. -/
def mulHundred (q : ℚ) : ℚ := mkRat (q.num * 100) q.den

/-- The amount formatter `fmt`:
`'' if pd.isna(x) else f"Rp. {int(x):,}" if float(x).is_integer() else f"Rp. {x:,.2f}"`. -/
def fmt (x : Option ℚ) : String :=
  match x with
  | none => ""
  | some q =>
    if q.den = 1 then "Rp. " ++ String.mk (groupInt q.num)
    else "Rp. " ++ String.mk (groupFixed2 q)

/-- `fmt_decimal`: `'' if pd.isna(x) else f"{x:.2f}"`. -/
def fmt_decimal (x : Option ℚ) : String :=
  match x with
  | none => ""
  | some q => String.mk (toFixed2 q)

/-- `fmt_percent`: `'' if pd.isna(x) else f"{x*100:.2f}%"`. -/
def fmt_percent (x : Option ℚ) : String :=
  match x with
  | none => ""
  | some q => String.mk (toFixed2 (mulHundred q)) ++ "%"

/-- The Analysis tab formats a ratio column with `fmt_percent` when its
kind is `percent`, else with `fmt_decimal`. -/
def formatRatioCell (k : RatioKind) (v : Option ℚ) : String :=
  match k with
  | .percent => fmt_percent v
  | .decimal => fmt_decimal v

theorem mulHundred_eq (q : ℚ) : mulHundred q = q * 100 := by
  rw [mulHundred, Rat.mkRat_eq_div]
  push_cast
  rw [mul_comm (q.num : ℚ) 100, mul_div_assoc, Rat.num_div_den, mul_comm]

/-! ### Frame lemmas -/

theorem frameRows_reindexFrom : ∀ (i : Nat) (l : List Row),
    frameRows (reindexFrom i l) = l := by
  intro i l
  induction l generalizing i with
  | nil => rfl
  | cons r rs ih => simp [reindexFrom, frameRows] at ih ⊢; exact ih (i + 1)

theorem reindexFrom_map_fst : ∀ (i : Nat) (l : List Row),
    (reindexFrom i l).map Prod.fst = List.range' i l.length := by
  intro i l
  induction l generalizing i with
  | nil => rfl
  | cons r rs ih => simp [reindexFrom, List.range'] at ih ⊢; exact ih (i + 1)

theorem reindexFrom_zero_map_fst (l : List Row) :
    (reindexFrom 0 l).map Prod.fst = List.range l.length := by
  rw [reindexFrom_map_fst, List.range_eq_range']

theorem reindexFrom_length : ∀ (i : Nat) (l : List Row),
    (reindexFrom i l).length = l.length := by
  intro i l
  induction l generalizing i with
  | nil => rfl
  | cons r rs ih => simp [reindexFrom] at ih ⊢; exact ih (i + 1)

/-- No two rows of the table carry the same date, in the pandas sense of
`==` on `Date` cells (`NaT` equals nothing, itself included). -/
def noDupDates (rows : List Row) : Prop :=
  rows.Pairwise (fun a b => dateEqB a.date b.date = false)

instance (rows : List Row) : Decidable (noDupDates rows) := by
  unfold noDupDates; exact List.instDecidablePairwise rows

/-- A whole session of form submissions: each step is the target date, the
20 entered values, and whether the overwrite box was ticked. -/
def applyUpserts (df : Frame) : List (PDate × List ℚ × Bool) → Frame
  | [] => df
  | (d, v, ow) :: rest => applyUpserts (upsert df d v ow).1 rest

theorem upsert_preserves_noDupDates (df : Frame) (d : PDate) (v : List ℚ) (ow : Bool)
    (h : noDupDates (frameRows df)) : noDupDates (frameRows (upsert df d v ow).1) := by
  rw [upsert]
  cases hany : (frameRows df).any (fun r => dateEqB r.date (some d)) with
  | false =>
    simp only [hany, Bool.false_eq_true, if_false, frameRows_reindexFrom]
    rw [noDupDates, List.pairwise_append]
    refine ⟨h, by simp, ?_⟩
    intro a ha b hb
    have := List.any_eq_false.mp hany a ha
    simp only [List.mem_singleton] at hb
    subst hb
    simpa using this
  | true =>
    simp only [hany, if_true]
    cases ow with
    | false => simpa using h
    | true =>
      simp only [if_true, frameRows_reindexFrom]
      rw [noDupDates, List.pairwise_append]
      refine ⟨h.sublist (List.filter_sublist _), by simp, ?_⟩
      intro a ha b hb
      have hpred := List.of_mem_filter ha
      simp only [List.mem_singleton] at hb
      subst hb
      simpa using hpred

/-! ### C1: uniqueness of dates under the save path -/

/-- C1: starting from a table in which no two rows share the same `Date`,
after any sequence of form-submit saves (append when the date is absent,
remove-then-append when it exists and overwrite is confirmed, no-op when
it exists and overwrite is not confirmed), no two rows of the resulting
table share the same date. -/
theorem upsert_sequence_keeps_dates_unique (ops : List (PDate × List ℚ × Bool)) (df : Frame)
    (h : noDupDates (frameRows df)) : noDupDates (frameRows (applyUpserts df ops)) := by
  induction ops generalizing df with
  | nil => exact h
  | cons op rest ih =>
    obtain ⟨d, v, ow⟩ := op
    exact ih _ (upsert_preserves_noDupDates df d v ow h)

theorem upsert_sequence_keeps_dates_unique_witness :
    noDupDates (frameRows [(0, (⟨some ⟨2023, 12, 31⟩, []⟩ : Row))]) ∧
      noDupDates (frameRows (applyUpserts [(0, (⟨some ⟨2023, 12, 31⟩, []⟩ : Row))]
        [(⟨2024, 1, 31⟩, [], true), (⟨2024, 1, 31⟩, [], true),
         (⟨2023, 12, 31⟩, [], false), (⟨2024, 2, 29⟩, [], true)])) :=
  ⟨by decide, upsert_sequence_keeps_dates_unique _ _ (by decide)⟩

/-! ### C4: policy B (overwrite) semantics -/

/-- The stored field-value sequences at date `d` (pandas row selection
`df[df['Date'] == d]`, projected to the field columns). -/
def valuesAt (rows : List Row) (d : PDate) : List (List ℚ) :=
  (rows.filter (fun r => dateEqB r.date (some d))).map (fun r => r.fields)

theorem upsert_mem_date (df : Frame) (d : PDate) (v : List ℚ) (ow : Bool) :
    (frameRows (upsert df d v ow).1).any (fun r => dateEqB r.date (some d)) = true := by
  rw [upsert]
  cases hany : (frameRows df).any (fun r => dateEqB r.date (some d)) with
  | false =>
    simp only [hany, Bool.false_eq_true, if_false, frameRows_reindexFrom, List.any_append]
    simp [dateEqB]
  | true =>
    simp only [hany, if_true]
    cases ow with
    | true =>
      simp only [if_true, frameRows_reindexFrom, List.any_append]
      simp [dateEqB]
    | false => simpa using hany

theorem filter_filter_not (rows : List Row) (p : Row → Bool) :
    (rows.filter (fun r => ! p r)).filter p = [] := by
  rw [List.filter_eq_nil_iff]
  intro a ha
  have hp := List.of_mem_filter ha
  simp only [Bool.not_eq_true'] at hp
  simp [hp]

/-- C4: saving values `v1` at date `d` and then saving values `v2` at the
same date with overwrite confirmed leaves exactly one stored row at `d`,
holding `v2`, and the second save signals the overwrite outcome
(`"Data overwritten successfully."`). -/
theorem upsert_policyB_overwrite (df : Frame) (d : PDate) (v1 v2 : List ℚ) (ow1 : Bool) :
    (upsert (upsert df d v1 ow1).1 d v2 true).2 = some "Data overwritten successfully." ∧
      valuesAt (frameRows (upsert (upsert df d v1 ow1).1 d v2 true).1) d = [v2] := by
  have hex := upsert_mem_date df d v1 ow1
  rw [upsert, if_pos hex, if_pos rfl]
  refine ⟨rfl, ?_⟩
  rw [frameRows_reindexFrom, valuesAt, List.filter_append, filter_filter_not]
  simp [dateEqB]

/-! ### C6 and C9: delete semantics -/

/-- C6: deleting a month label whose derived last-calendar-day date matches
no row leaves the row list unchanged (a no-op, not an error; only the
index is re-densified). -/
theorem delete_date_missing_noop (df : Frame) (s : String) (y m : Nat)
    (hp : parseLabel s = some (y, m))
    (h : ∀ r ∈ frameRows df, dateEqB r.date (some (lastDate y m)) = false) :
    (delete_date df s).map (fun p => frameRows p.1) = some (frameRows df) := by
  rw [delete_date, hp, Option.map_some', Option.map_some', Option.some_inj,
    frameRows_reindexFrom]
  apply List.filter_eq_self.mpr
  intro r hr
  rw [h r hr]
  rfl

theorem delete_date_missing_noop_witness :
    parseLabel "Mar 2024" = some (2024, 3) ∧
      (∀ r ∈ frameRows [(0, (⟨some ⟨2024, 1, 31⟩, []⟩ : Row)),
          (1, (⟨none, []⟩ : Row))],
        dateEqB r.date (some (lastDate 2024 3)) = false) ∧
      (delete_date [(0, (⟨some ⟨2024, 1, 31⟩, []⟩ : Row)), (1, (⟨none, []⟩ : Row))]
          "Mar 2024").map (fun p => frameRows p.1) =
        some (frameRows [(0, (⟨some ⟨2024, 1, 31⟩, []⟩ : Row)), (1, (⟨none, []⟩ : Row))]) :=
  ⟨by decide, by decide,
    delete_date_missing_noop _ "Mar 2024" 2024 3 (by decide) (by decide)⟩

/-- C9: for any parseable month label, `delete_date` removes exactly the
rows whose `Date` equals the last calendar day of the labeled month; every
other row — rows with the `NaT` marker included — survives unchanged and in
order (the result is the filtered row list), the index is re-densified to
`0,1,2,…`, and the returned backup is the pre-deletion frame. -/
theorem delete_date_frame_effect (df : Frame) (s : String) (y m : Nat)
    (hp : parseLabel s = some (y, m)) :
    ∃ res, delete_date df s = some (res, df) ∧
      frameRows res =
        (frameRows df).filter (fun r => ! dateEqB r.date (some (lastDate y m))) ∧
      res.map Prod.fst = List.range res.length ∧
      (∀ r ∈ frameRows df, r.date = none → r ∈ frameRows res) := by
  refine ⟨reindexFrom 0 ((frameRows df).filter
    (fun r => ! dateEqB r.date (some (lastDate y m)))), ?_, ?_, ?_, ?_⟩
  · rw [delete_date, hp, Option.map_some']
  · rw [frameRows_reindexFrom]
  · rw [reindexFrom_zero_map_fst, reindexFrom_length]
  · intro r hr hnone
    rw [frameRows_reindexFrom]
    apply List.mem_filter.mpr
    exact ⟨hr, by rw [hnone]; rfl⟩

theorem delete_date_frame_effect_witness :
    parseLabel "Jan 2024" = some (2024, 1) ∧
      (∃ res, delete_date [(0, (⟨some ⟨2024, 1, 31⟩, [1]⟩ : Row)),
          (1, (⟨some ⟨2024, 2, 29⟩, [2]⟩ : Row)), (2, (⟨none, [3]⟩ : Row))] "Jan 2024" =
          some (res, [(0, (⟨some ⟨2024, 1, 31⟩, [1]⟩ : Row)),
            (1, (⟨some ⟨2024, 2, 29⟩, [2]⟩ : Row)), (2, (⟨none, [3]⟩ : Row))]) ∧
        frameRows res =
          (frameRows [(0, (⟨some ⟨2024, 1, 31⟩, [1]⟩ : Row)),
            (1, (⟨some ⟨2024, 2, 29⟩, [2]⟩ : Row)), (2, (⟨none, [3]⟩ : Row))]).filter
            (fun r => ! dateEqB r.date (some (lastDate 2024 1))) ∧
        res.map Prod.fst = List.range res.length ∧
        (∀ r ∈ frameRows [(0, (⟨some ⟨2024, 1, 31⟩, [1]⟩ : Row)),
            (1, (⟨some ⟨2024, 2, 29⟩, [2]⟩ : Row)), (2, (⟨none, [3]⟩ : Row))],
          r.date = none → r ∈ frameRows res)) :=
  ⟨by decide, delete_date_frame_effect _ "Jan 2024" 2024 1 (by decide)⟩

/-! ### C2: zero-denominator ratio policy -/

/-- C2: for every entry of `RATIO_FIELDS` and every Snapshot whose
denominator field is exactly 0, the ratio value is the missing marker
(`pd.NA`) and its formatted cell is the empty string — not `NaN`, not
`Infinity`, not an error.  `Current Ratio` with `Current Liabilities = 0`
is the instance `e = RATIO_FIELDS[0]` (denominator index 3). -/
theorem ratio_zero_denominator_blank (e : RatioDef) (he : e ∈ RATIO_FIELDS) (r : Row)
    (h : getField r e.denIdx = 0) :
    ratioValue e r = none ∧ formatRatioCell e.kind (ratioValue e r) = "" := by
  have hv : ratioValue e r = none := by rw [ratioValue, if_pos h]
  refine ⟨hv, ?_⟩
  rw [hv]
  cases e.kind <;> rfl

theorem ratio_zero_denominator_blank_witness :
    (⟨"Current Ratio", 0, 3, .decimal⟩ : RatioDef) ∈ RATIO_FIELDS ∧
      getField (⟨none, [(2 : ℚ), 0, 0, 0]⟩ : Row) 3 = 0 ∧
      (ratioValue ⟨"Current Ratio", 0, 3, .decimal⟩ (⟨none, [(2 : ℚ), 0, 0, 0]⟩ : Row) =
          none ∧
        formatRatioCell RatioKind.decimal
          (ratioValue ⟨"Current Ratio", 0, 3, .decimal⟩
            (⟨none, [(2 : ℚ), 0, 0, 0]⟩ : Row)) = "") :=
  ⟨by decide, by decide,
    ratio_zero_denominator_blank _ (by decide) _ (by decide)⟩

/-! ### C8: amount formatting -/

/-- C8 counterexample: the amount formatter prefixes every amount with
`"Rp. "`, so `1234567.0` does not format to the bare string
`"1,234,567"` claimed by the spec. -/
theorem fmt_bare_string_refuted : fmt (some (1234567 : ℚ)) ≠ "1,234,567" := by decide

/-- C8 amended: integer amounts render as `Rp. `-prefixed grouped thousands
with no decimals, non-integer amounts with exactly 2 decimal places:
`1234567.0 ↦ "Rp. 1,234,567"` and `1234567.5 ↦ "Rp. 1,234,567.50"`
(here `mkRat 2469135 2` is the rational `1234567.5`). -/
theorem fmt_amount_prefixed_grouping :
    (mkRat 2469135 2 : ℚ) = 1234567.5 ∧
      fmt (some (1234567 : ℚ)) = "Rp. 1,234,567" ∧
      fmt (some (mkRat 2469135 2)) = "Rp. 1,234,567.50" :=
  ⟨by norm_num [Rat.mkRat_eq_div], by decide, by decide⟩

/-! ### C3, C7, C10: `load_data` behavior -/

theorem colIndex_eq_none {hdr : List String} {c : String} (h : c ∉ hdr) :
    colIndex hdr c = none := by
  induction hdr with
  | nil => rfl
  | cons x t ih =>
    rw [colIndex, if_neg (fun hx => h (by rw [hx]; exact List.mem_cons_self c t)),
      ih (fun hm => h (List.mem_cons_of_mem x hm))]
    rfl

/-- A one-record file whose `Date` cell is not a parseable date. -/
def badDateFile : CsvFile := ⟨canonicalCols, [["this is not a date", "1", "2"]]⟩

/-- C3 counterexample: `load_data` never filters rows.  For `badDateFile`,
whose single record has an unparseable `Date` cell, the loaded table still
holds that row — with `Date` coerced to the null marker — instead of the
row being absent as the claim states. -/
theorem load_keeps_unparseable_date_row :
    toDatetime (getRawCell badDateFile.header (badDateFile.records.getD 0 []) "Date") =
        none ∧
      (load_data (some badDateFile)).rows.map (fun r => r.date) = [none] :=
  ⟨by decide, by decide⟩

/-- C3 amended: `load_data` keeps one output row per input record, in
position; a row whose date cell cannot be parsed is retained with its
`Date` coerced to the null marker (`NaT`), not dropped. -/
theorem load_coerces_unparseable_dates (f : CsvFile) :
    (load_data (some f)).rows.length = f.records.length ∧
      ∀ i, i < f.records.length →
        ((load_data (some f)).rows.getD i default).date =
          toDatetime (getRawCell f.header (f.records.getD i []) "Date") := by
  constructor
  · rw [load_data]
    exact List.length_map _ _
  · intro i hi
    rw [load_data]
    dsimp only
    have hmap : (f.records.map (loadRow f.header)).getD i default =
        loadRow f.header (f.records.getD i []) := by
      rw [List.getD_eq_getElem?_getD, List.getD_eq_getElem?_getD, List.getElem?_map]
      rcases h : f.records[i]? with _ | rec
      · exfalso
        rw [List.getElem?_eq_none_iff] at h
        omega
      · rfl
    rw [hmap]
    rfl

theorem load_coerces_unparseable_dates_witness :
    0 < badDateFile.records.length ∧
      ((load_data (some badDateFile)).rows.getD 0 default).date =
        toDatetime (getRawCell badDateFile.header (badDateFile.records.getD 0 []) "Date") :=
  ⟨by decide, (load_coerces_unparseable_dates badDateFile).2 0 (by decide)⟩

/-- A two-record file with no `Date` column at all. -/
def noDateFile : CsvFile := ⟨["Current Asset"], [["1"], ["2"]]⟩

/-- C10: when the backing file has no `Date` column, `load_data` synthesizes
the column as the scalar `0` and `pd.to_datetime` reads that `0` as the
epoch timestamp `1970-01-01` — not the null marker — so every loaded row
carries that single date. -/
theorem missing_date_column_epoch (f : CsvFile) (h : "Date" ∉ f.header) :
    ∀ r ∈ (load_data (some f)).rows, r.date = some epochDate := by
  intro r hr
  rw [load_data] at hr
  dsimp only at hr
  obtain ⟨rec, hrec, hr⟩ := List.mem_map.mp hr
  rw [← hr, loadRow]
  dsimp only
  rw [getRawCell, colIndex_eq_none h]
  rfl

theorem missing_date_column_epoch_witness :
    "Date" ∉ noDateFile.header ∧
      ∀ r ∈ (load_data (some noDateFile)).rows, r.date = some epochDate :=
  ⟨by decide, missing_date_column_epoch noDateFile (by decide)⟩

/-- A file carrying a column outside the schema. -/
def extraColFile : CsvFile := ⟨["Extra", "Date"], [["5", "2024-01-31"]]⟩

/-- C7 counterexample: `load_data` retains file columns that are not in the
schema, so for `extraColFile` the loaded column set is not exactly
`{Date} ∪ ACCOUNT_FIELDS`: the extra column survives. -/
theorem load_extra_column_kept :
    "Extra" ∈ (load_data (some extraColFile)).cols ∧ "Extra" ∉ canonicalCols :=
  ⟨by decide, by decide⟩

/-- C7 amended: the loaded column list always contains every canonical
column (`Date` plus the 20 schema fields; a schema column absent from the
file is synthesized and every row holds 0 there), contains no column beyond
the file columns and the canonical ones, and is exactly the canonical list
when the backing file is absent.  Extra file columns are retained, so the
column set can strictly exceed the canonical set. -/
theorem load_cols_characterization (f : CsvFile) :
    (∀ c ∈ canonicalCols, c ∈ (load_data (some f)).cols) ∧
      (∀ c ∈ (load_data (some f)).cols, c ∈ f.header ∨ c ∈ canonicalCols) ∧
      (load_data none).cols = canonicalCols ∧
      (∀ rec ∈ f.records, ∀ i, i < ACCOUNT_FIELDS.length →
        ACCOUNT_FIELDS.getD i "" ∉ f.header →
        (loadRow f.header rec).fields.getD i 0 = 0) := by
  refine ⟨?_, ?_, rfl, ?_⟩
  · intro c hc
    rw [load_data]
    dsimp only
    rw [List.mem_append]
    by_cases hmem : c ∈ f.header
    · exact Or.inl hmem
    · right
      apply List.mem_filter.mpr
      refine ⟨hc, by simp [List.contains, hmem]⟩
  · intro c hc
    rw [load_data] at hc
    dsimp only at hc
    rcases List.mem_append.mp hc with h | h
    · exact Or.inl h
    · exact Or.inr (List.mem_filter.mp h).1
  · intro rec hrec i hi hnotmem
    rw [loadRow]
    dsimp only
    have hmap : ((ACCOUNT_FIELDS.map
        (fun c => toNumeric (getRawCell f.header rec c))).getD i 0) =
        toNumeric (getRawCell f.header rec (ACCOUNT_FIELDS.getD i "")) := by
      rw [List.getD_eq_getElem?_getD, List.getD_eq_getElem?_getD, List.getElem?_map]
      rcases h : ACCOUNT_FIELDS[i]? with _ | c
      · exfalso
        rw [List.getElem?_eq_none_iff] at h
        omega
      · rfl
    rw [hmap, getRawCell, colIndex_eq_none hnotmem]
    rfl

theorem load_cols_characterization_witness :
    ("Current Asset" ∈ canonicalCols ∧
        "Current Asset" ∈ (load_data (some extraColFile)).cols) ∧
      (["5", "2024-01-31"] ∈ extraColFile.records ∧ 0 < ACCOUNT_FIELDS.length ∧
        ACCOUNT_FIELDS.getD 0 "" ∉ extraColFile.header ∧
        (loadRow extraColFile.header ["5", "2024-01-31"]).fields.getD 0 0 = 0) :=
  ⟨⟨by decide, (load_cols_characterization extraColFile).1 _ (by decide)⟩,
    by decide, by decide, by decide,
    (load_cols_characterization extraColFile).2.2.2 _ (by decide) 0 (by decide) (by decide)⟩

/-! ### C5: persistence round trip -/

/-- The data-model invariant on a `Date` cell: absent, or a representable
calendar date. -/
def dateOk : Option PDate → Prop
  | none => True
  | some d => ValidDate d

instance : (o : Option PDate) → Decidable (dateOk o)
  | none => isTrue trivial
  | some d => inferInstanceAs (Decidable (ValidDate d))

theorem colIndex_getD_nodup :
    ∀ (hdr : List String), hdr.Nodup → ∀ i, i < hdr.length →
      colIndex hdr (hdr.getD i "") = some i := by
  intro hdr
  induction hdr with
  | nil => intro _ i h; simp at h
  | cons x t ih =>
    intro hnd i h
    match i with
    | 0 =>
      have hx : (x :: t).getD 0 "" = x := rfl
      rw [hx, colIndex, if_pos rfl]
    | i + 1 =>
      have hi : i < t.length := by simpa using h
      have hget : (x :: t).getD (i + 1) "" = t.getD i "" := rfl
      rw [hget, colIndex]
      have hmem : t.getD i "" ∈ t := by
        rw [List.getD_eq_getElem t "" hi]
        exact List.getElem_mem hi
      have hx : ¬ x = t.getD i "" := by
        intro hxx
        exact (List.nodup_cons.mp hnd).1 (by rw [hxx]; exact hmem)
      rw [if_neg hx, ih (List.nodup_cons.mp hnd).2 i hi]
      rfl

theorem loadRow_save_row (r : Row)
    (hlen : r.fields.length = ACCOUNT_FIELDS.length)
    (hdate : dateOk r.date)
    (hval : ∀ v ∈ r.fields, DecimalRep v) :
    loadRow canonicalCols
      (String.mk (serializeDate r.date) ::
        r.fields.map (fun v => String.mk (serializeNum v))) = r := by
  obtain ⟨rd, rf⟩ := r
  rw [loadRow, Row.mk.injEq]
  constructor
  · rw [getRawCell]
    have h0 : colIndex canonicalCols "Date" = some 0 := by decide
    rw [h0]
    show parseDateChars (serializeDate rd) = rd
    exact parseDateChars_serializeDate_opt (fun d hd => by rw [hd] at hdate; exact hdate)
  · simp only at hlen hval
    apply List.ext_getElem
    · rw [List.length_map]; omega
    · intro i h1 h2
      rw [List.getElem_map]
      have hiAF : i < ACCOUNT_FIELDS.length := by simpa using h1
      rw [← List.getD_eq_getElem ACCOUNT_FIELDS "" hiAF]
      rw [getRawCell]
      have hnd : canonicalCols.Nodup := by decide
      have hidx : colIndex canonicalCols (ACCOUNT_FIELDS.getD i "") = some (i + 1) := by
        have hcan := colIndex_getD_nodup canonicalCols hnd (i + 1)
          (by rw [canonicalCols, List.length_cons]; omega)
        rw [show canonicalCols.getD (i + 1) "" = ACCOUNT_FIELDS.getD i "" from rfl] at hcan
        exact hcan
      rw [hidx]
      show toNumeric (.fileCell
        ((rf.map (fun v => String.mk (serializeNum v))).getD i "")) = rf[i]
      rw [List.getD_eq_getElem _ "" (by rw [List.length_map]; exact h2), List.getElem_map]
      show (parseNumChars (serializeNum rf[i])).getD 0 = rf[i]
      rw [parseNumChars_serializeNum (hval _ (List.getElem_mem h2))]
      rfl

/-- C5: persistence round trip.  For every in-memory table satisfying the
data-model invariants (representable parseable dates, unique dates,
schema-length rows, finite-decimal — i.e. float-representable — field
values), writing with `save_data` and reading back with `load_data` yields
the same rows under the canonical columns. -/
theorem save_load_roundtrip (T : List Row)
    (hlen : ∀ r ∈ T, r.fields.length = ACCOUNT_FIELDS.length)
    (hdate : ∀ r ∈ T, dateOk r.date)
    (hval : ∀ r ∈ T, ∀ v ∈ r.fields, DecimalRep v)
    (hunique : noDupDates T) :
    (load_data (some (save_data T))).cols = canonicalCols ∧
      (load_data (some (save_data T))).rows = T := by
  constructor
  · rw [load_data]
    dsimp only [save_data]
    decide
  · rw [load_data]
    dsimp only [save_data]
    rw [List.map_map]
    conv_rhs => rw [← List.map_id T]
    apply List.map_congr_left
    intro r hr
    simp only [Function.comp_apply, id_eq]
    exact loadRow_save_row r (hlen r hr) (hdate r hr) (hval r hr)

/-- A one-row table with a mixed integral / fractional value profile. -/
def sampleRow : Row :=
  ⟨some ⟨2024, 1, 31⟩,
   [1000000, mkRat 1 2, 0, 0, 0, 0, 0, 0, 0, 0, 0, 0, 0, 0, 0, 0, 0, 0, 0, 0]⟩

theorem save_load_roundtrip_witness :
    (∀ r ∈ [sampleRow], r.fields.length = ACCOUNT_FIELDS.length) ∧
      (∀ r ∈ [sampleRow], dateOk r.date) ∧
      (∀ r ∈ [sampleRow], ∀ v ∈ r.fields, DecimalRep v) ∧
      noDupDates [sampleRow] ∧
      ((load_data (some (save_data [sampleRow]))).cols = canonicalCols ∧
        (load_data (some (save_data [sampleRow]))).rows = [sampleRow]) :=
  ⟨by decide, by decide, by decide, by decide,
    save_load_roundtrip [sampleRow] (by decide) (by decide) (by decide) (by decide)⟩
